import Mathlib

/-!
Verification of the workload-orchestration engine of the dummy DVFS simulator.

The definitions below are a shallow embedding of the C++ sources
`simulators/thermo_jolt.cpp` and the `cpu_burner` variant (same functions):
the topology reader `read_online_cpus`, the worker-count resolution in
`main`, the stop/work flag protocol, the phase-controller thread, the
worker hot loop (over exact rationals in place of IEEE doubles), and the
ordered teardown sequence of `main`.
-/

namespace DDS

/-! ## Topology reader (`read_online_cpus`, thermo_jolt.cpp lines 49-79)

The C++ loop scans the descriptor string left to right with an index `i`
that only moves forward; we model the string position by the remaining
list of characters.  The outer `while` loop has no progress guarantee on
characters outside the alphabet {digit, `-`, `,`} (no branch advances `i`
then), so the embedding gives the loop explicit fuel: `none` means the
iteration bound was exhausted, i.e. the source loop has not returned. -/

/-- Characters on which the C++ scanning loop makes progress. -/
def validChar (c : Char) : Bool := c.isDigit || c == '-' || c == ','

/-- `while (i < s.size() && isdigit(s[i])) { a = a*10 + (s[i]-'0'); ++i; }` -/
def digitsAcc : List Char → Nat → Nat × List Char
  | [], a => (a, [])
  | c :: cs, a =>
    if c.isDigit then digitsAcc cs (a * 10 + (c.toNat - 48)) else (a, c :: cs)

/-- `if (i < s.size() && s[i] == ',') ++i;` -/
def skipComma : List Char → List Char
  | [] => []
  | c :: cs => if c == ',' then cs else c :: cs

/-- `if (i < s.size() && s[i] == '-') { ++i; ... }`: the rest past a
leading dash, or `none` when the head is not a dash. -/
def afterDash : List Char → Option (List Char)
  | [] => none
  | c :: cs => if c == '-' then some cs else none

/-- `add_range(a, b)`: `for (int i = a; i <= b; ++i) cpus.push_back(i);`
(empty when `b < a`). -/
def range_ab (a b : Nat) : List Nat := List.range' a (b + 1 - a)

/-- The body of `read_online_cpus`'s `while (i < s.size())` loop, with fuel.
One unit of fuel is one iteration of the source loop.  In each iteration:
skip a lone comma, else read digits into `a`, optionally read `-` and
digits into `b` (`b = a` when no dash), `add_range(a, b)`, skip one
trailing comma. -/
def parseLoop : Nat → List Char → List Nat → Option (List Nat)
  | _, [], acc => some acc
  | 0, _ :: _, _ => none
  | fuel + 1, c :: cs, acc =>
    if c == ',' then parseLoop fuel cs acc
    else
      match afterDash (digitsAcc (c :: cs) 0).2 with
      | some r2 =>
        parseLoop fuel (skipComma (digitsAcc r2 0).2)
          (acc ++ range_ab (digitsAcc (c :: cs) 0).1 (digitsAcc r2 0).1)
      | none =>
        parseLoop fuel (skipComma (digitsAcc (c :: cs) 0).2)
          (acc ++ range_ab (digitsAcc (c :: cs) 0).1 (digitsAcc (c :: cs) 0).1)

/-- `read_online_cpus` on an already-read descriptor: run the scanning loop
(with fuel `length + 1`, enough for any input the loop terminates on), then
`std::sort` + `std::unique` (modelled by `insertionSort` + `dedup`; on a
sorted list `std::unique`'s removal of adjacent duplicates removes all
duplicates, which is what `dedup` computes). -/
def read_online_cpus (s : List Char) : Option (List Nat) :=
  (parseLoop (s.length + 1) s []).map fun l =>
    (List.insertionSort (· ≤ ·) l).dedup

/-! ### The claim's descriptor grammar

`wellFormed` recognises the grammar stated in the specification: a
comma-separated, nonempty sequence of tokens, each a single nonnegative
integer (1+ digits) or two integers joined by `-`. -/

/-- Longest digit prefix and the remainder. -/
def digitsSpan : List Char → List Char × List Char
  | [] => ([], [])
  | c :: cs =>
    if c.isDigit then (c :: (digitsSpan cs).1, (digitsSpan cs).2)
    else ([], c :: cs)

/-- Recognise one token (`N` or `N-N`), returning the remainder. -/
def wfTok (l : List Char) : Option (List Char) :=
  if (digitsSpan l).1.isEmpty then none
  else
    match afterDash (digitsSpan l).2 with
    | some r2 =>
      if (digitsSpan r2).1.isEmpty then none else some (digitsSpan r2).2
    | none => some (digitsSpan l).2

/-- Recognise `tok (',' tok)*` (with fuel; each token is nonempty so
`length + 1` fuel always suffices). -/
def wfDesc : Nat → List Char → Bool
  | _, [] => false
  | 0, _ :: _ => false
  | fuel + 1, c :: cs =>
    match wfTok (c :: cs) with
    | none => false
    | some [] => true
    | some (c2 :: rest) => c2 == ',' && wfDesc fuel rest

/-- A well-formed online-unit descriptor per the spec's grammar. -/
def wellFormed (s : List Char) : Bool := wfDesc (s.length + 1) s


/-! ## Worker-count resolution (thermo_jolt.cpp `main`, lines 196-201)

```
auto cpus = read_online_cpus();
int online = cpus.empty() ? (int)std::thread::hardware_concurrency() : (int)cpus.size();
if (online <= 0) online = 1;
if (threads <= 0) threads = online;
if (!cpus.empty() && threads > (int)cpus.size()) threads = (int)cpus.size();
```
Note that the final clamp does not consult the `pin` flag. -/

/-- `online` after the first two statements. -/
def resolve_online (cpus : List Nat) (hw : Nat) : Int :=
  let o : Int := if cpus.isEmpty then (hw : Int) else (cpus.length : Int)
  if o ≤ 0 then 1 else o

/-- `threads` after the last two statements (`requested` is the parsed
`-t` value, default `-1`). -/
def resolve_threads (cpus : List Nat) (hw : Nat) (requested : Int) : Int :=
  let t : Int := if requested ≤ 0 then resolve_online cpus hw else requested
  if cpus.isEmpty = false ∧ (cpus.length : Int) < t then (cpus.length : Int) else t

/-- The worker-count resolution as claim C5 words it: the clamp applies
exactly when pinning is enabled and a non-empty unit list exists.  This
definition follows the claim's words, to be compared against
`resolve_threads`, which follows the source. -/
def resolve_threads_claim (pin : Bool) (cpus : List Nat) (hw : Nat)
    (requested : Int) : Int :=
  let t : Int := if requested ≤ 0 then resolve_online cpus hw else requested
  if pin = true ∧ cpus.isEmpty = false ∧ (cpus.length : Int) < t then
    (cpus.length : Int)
  else t


/-! ## The shared control flags

`g_stop` (set by the SIGINT handler), `g_work` (toggled by the phase
controller), `stop` (set by the deadline thread and by `main` after its
wait loop), and `sigterm` (the recorder's stop flag, set by `main` during
teardown).  Every write any component performs on these flags in the
source is one constructor of `FlagStep`; workers write none of them. -/

structure Flags where
  g_stop : Bool
  g_work : Bool
  stop : Bool
  sigterm : Bool
deriving DecidableEq

/-- `static void on_sigint(int) { g_stop.store(true); }` -/
def on_sigint (s : Flags) : Flags := { s with g_stop := true }

/-- One flag write by any thread of the run. -/
inductive FlagStep : Flags → Flags → Prop
  | sigint (s : Flags) : FlagStep s (on_sigint s)
  | deadlineStop (s : Flags) : FlagStep s { s with stop := true }
  | mainStop (s : Flags) : FlagStep s { s with stop := true }
  | mainSigterm (s : Flags) : FlagStep s { s with sigterm := true }
  | phaseWorkOn (s : Flags) : FlagStep s { s with g_work := true }
  | phaseWorkOff (s : Flags) : FlagStep s { s with g_work := false }

/-- "Stop requested": `g_stop || stop`, the disjunction every loop
condition in the source reads. -/
def stopRequested (s : Flags) : Bool := s.g_stop || s.stop


/-! ## Phase controller (`phase_thread`, thermo_jolt.cpp lines 238-262)

```
while (!g_stop && !stop) {
    g_work.store(true);                      // warm-up / active
    for (s = 0; s < duration_sec - pulse_sec && !g_stop && !stop; ++s) sleep(1s);
    g_work.store(false);                     // pulse / idle
    for (s = 0; s < pulse_sec && !g_stop && !stop; ++s) sleep(1s);
}
```
The control state is a program counter; each step reads the combined
stop observation (`g_stop || stop`) once, supplied by an observation
stream, and may emit a store to `g_work`.  Note the `g_work.store(false)`
between the two `for` loops is unconditional. -/

inductive PhasePC
  | whileCheck
  | warmLoop (s : Int)
  | pulseStore
  | pulseLoop (s : Int)
  | exited
deriving DecidableEq

/-- One step of the phase-controller thread: next program counter and the
optional store to the work flag (`some v` is `g_work.store(v)`).
`warm` is `duration_sec - pulse_sec`; `pulse` is `pulse_sec`. -/
def phase_step (warm pulse : Int) : PhasePC → Bool → PhasePC × Option Bool
  | .whileCheck, stopObs =>
    if stopObs then (.exited, none) else (.warmLoop 0, some true)
  | .warmLoop s, stopObs =>
    if s < warm ∧ stopObs = false then (.warmLoop (s + 1), none)
    else (.pulseStore, none)
  | .pulseStore, _ => (.pulseLoop 0, some false)
  | .pulseLoop s, stopObs =>
    if s < pulse ∧ stopObs = false then (.pulseLoop (s + 1), none)
    else (.whileCheck, none)
  | .exited, _ => (.exited, none)

/-- Run the phase controller for `fuel` steps against an observation
stream, collecting the stores to the work flag in order. -/
def phase_run (warm pulse : Int) : Nat → PhasePC → (Nat → Bool) → List Bool
  | 0, _, _ => []
  | fuel + 1, pc, obs =>
    match phase_step warm pulse pc (obs 0) with
    | (pc2, some v) => v :: phase_run warm pulse fuel pc2 (fun n => obs (n + 1))
    | (pc2, none) => phase_run warm pulse fuel pc2 (fun n => obs (n + 1))


/-! ## Teardown sequence and `main`'s observable summary
(thermo_jolt.cpp `main`, lines 275-293)

```
while (!g_stop && !stop) sleep(500ms);
stop.store(true);
for (auto& t : ths) t.join();
sigterm = true;
dvfs.unset_cpu_freq();
dvfs.unset_ram_freq();
if (phase_thread.joinable()) phase_thread.join();
record_thread.join();
sleep(1000ms);
return 0;
```
After the wait loop exits, the teardown is straight-line code; its event
sequence is a function of the worker count only. -/

inductive MainEvent
  | stopSet
  | workerJoined (i : Nat)
  | sigtermSet
  | unsetCpuFreq
  | unsetRamFreq
  | phaseJoined
  | recorderJoined
deriving DecidableEq

/-- The events after all workers are joined, in source order. -/
def teardownTail : List MainEvent :=
  [MainEvent.sigtermSet, MainEvent.unsetCpuFreq, MainEvent.unsetRamFreq,
   MainEvent.phaseJoined, MainEvent.recorderJoined]

/-- The teardown event sequence of a run with `n` workers. -/
def teardownTrace (n : Nat) : List MainEvent :=
  MainEvent.stopSet :: ((List.range n).map MainEvent.workerJoined ++ teardownTail)

/-- `a` occurs at a strictly earlier position than `b` in `l`. -/
def eventBefore (l : List MainEvent) (a b : MainEvent) : Prop :=
  ∃ i j : Nat, i < j ∧ l[i]? = some a ∧ l[j]? = some b


/-! ## `main`'s configuration-to-behavior summary

Everything `main` does that is observable from outside (the DVFS calls
and their arguments, the output file name, the resolved worker count, the
phase durations, the teardown order, the exit status) as a function of
the parsed options.  `joinPaths` only prefixes the (pulse-independent)
output directory, so the file name is kept un-joined. -/

structure JoltConfig where
  nopin : Bool
  threads : Int
  duration : Int
  pulse : Int
  device : String
  output : String
  cpu_clk : Int
  ram_clk : Int
  pulse_cpu_clk : Int
  pulse_ram_clk : Int

structure MainSummary where
  pin : Bool
  resolved_threads : Int
  warmup_secs : Int
  pulse_secs : Int
  device : String
  output_dir : String
  output_name : String
  applied_cpu_idx : Int
  applied_ram_idx : Int
  trace : List MainEvent
  exit_code : Int

/-- The observable behavior of `main` (thermo_jolt.cpp lines 154-293) as
a function of the configuration, the online-cpu list and the
hardware-concurrency estimate. -/
def main_summary (cfg : JoltConfig) (cpus : List Nat) (hw : Nat) : MainSummary :=
  let duration_sec : Int := if 0 < cfg.duration then cfg.duration else 0
  let pulse_sec : Int := if 0 < cfg.pulse then cfg.pulse else 0
  let t := resolve_threads cpus hw cfg.threads
  { pin := !cfg.nopin
    resolved_threads := t
    warmup_secs := duration_sec - pulse_sec
    pulse_secs := pulse_sec
    device := cfg.device
    output_dir := cfg.output
    output_name := "kernel_hard" ++ toString cfg.cpu_clk ++ "_" ++
      toString cfg.ram_clk ++ ".txt"
    applied_cpu_idx := cfg.cpu_clk
    applied_ram_idx := cfg.ram_clk
    trace := teardownTrace t.toNat
    exit_code := 0 }


/-! ## Worker hot loop (`hot_loop`, thermo_jolt.cpp lines 121-152)

One iteration of the inner `for` (the flag checks sit outside the batch):

```
v0 = v0 * 1.0000001 + 0.9999999;
v1 = v1 * 0.9999997 + 1.0000003;
v2 = v2 * 1.0000002 + 0.9999998;
v3 = v3 * 0.9999996 + 1.0000004;
rng = rng * 1664525u + 1013904223u;
if (v0 > 1e30) v0 = 1.0;
if (v1 < 1e-30) v1 = 1.0;
```

The accumulators are modelled over exact rationals in place of IEEE
doubles (the decimal literals taken exactly); which accumulators carry a
re-seed branch is float-independent, and the unbounded growth of `v2`
(multiplier > 1, no re-seed) holds for correctly rounded doubles as
well.  `rng` is a `uint32_t`, modelled with an explicit `% 2 ^ 32`. -/

structure HotState where
  v0 : ℚ
  v1 : ℚ
  v2 : ℚ
  v3 : ℚ
  rng : Nat

/-- `v0 = 1.000001, v1 = 0.999999, v2 = 1.000003, v3 = 0.999997;
rng = 123456789u;` -/
def hot_init : HotState :=
  { v0 := 1000001 / 1000000
    v1 := 999999 / 1000000
    v2 := 1000003 / 1000000
    v3 := 999997 / 1000000
    rng := 123456789 }

/-- One iteration of the inner loop body of `hot_loop`. -/
def hot_step (s : HotState) : HotState :=
  let w0 : ℚ := s.v0 * (10000001 / 10000000) + 9999999 / 10000000
  let w1 : ℚ := s.v1 * (9999997 / 10000000) + 10000003 / 10000000
  let w2 : ℚ := s.v2 * (10000002 / 10000000) + 9999998 / 10000000
  let w3 : ℚ := s.v3 * (9999996 / 10000000) + 10000004 / 10000000
  let r : Nat := (s.rng * 1664525 + 1013904223) % 2 ^ 32
  { v0 := if 10 ^ 30 < w0 then 1 else w0
    v1 := if w1 < 1 / 10 ^ 30 then 1 else w1
    v2 := w2
    v3 := w3
    rng := r }

/-- The accumulator state after `n` iterations of the loop body. -/
def hot_iter : Nat → HotState
  | 0 => hot_init
  | n + 1 => hot_step (hot_iter n)


/-! ## Lemmas and claim theorems -/

/-! ### Helper lemmas about the scanner -/

theorem digitsAcc_decomp :
    ∀ (l : List Char) (a : Nat),
      ∃ d, l = d ++ (digitsAcc l a).2 ∧ ∀ c ∈ d, c.isDigit = true := by
  intro l
  induction l with
  | nil => intro a; exact ⟨[], rfl, by simp⟩
  | cons c cs ih =>
    intro a
    by_cases h : c.isDigit
    · obtain ⟨d, hd, hdig⟩ := ih (a * 10 + (c.toNat - 48))
      refine ⟨c :: d, ?_, ?_⟩
      · simpa [digitsAcc, h] using congrArg (c :: ·) hd
      · intro x hx
        rcases List.mem_cons.mp hx with rfl | hx
        · exact h
        · exact hdig x hx
    · exact ⟨[], by simp [digitsAcc, h], by simp⟩

theorem digitsAcc_snd_length (l : List Char) (a : Nat) :
    (digitsAcc l a).2.length ≤ l.length := by
  obtain ⟨d, hd, -⟩ := digitsAcc_decomp l a
  calc (digitsAcc l a).2.length ≤ d.length + (digitsAcc l a).2.length := by omega
    _ = (d ++ (digitsAcc l a).2).length := (List.length_append d _).symm
    _ = l.length := by rw [← hd]

theorem mem_digitsAcc_snd {x : Char} {l : List Char} {a : Nat}
    (hx : x ∈ (digitsAcc l a).2) : x ∈ l := by
  obtain ⟨d, hd, -⟩ := digitsAcc_decomp l a
  rw [hd]; exact List.mem_append_right d hx

theorem foreign_mem_digitsAcc_snd {x : Char} {l : List Char} {a : Nat}
    (hx : x ∈ l) (hv : validChar x = false) : x ∈ (digitsAcc l a).2 := by
  obtain ⟨d, hd, hdig⟩ := digitsAcc_decomp l a
  rw [hd] at hx
  rcases List.mem_append.mp hx with hxd | hxr
  · exfalso
    have := hdig x hxd
    simp [validChar, this] at hv
  · exact hxr

theorem skipComma_length (l : List Char) : (skipComma l).length ≤ l.length := by
  cases l with
  | nil => simp [skipComma]
  | cons c cs =>
    by_cases h : c == ','
    · simp [skipComma, h]
    · simp [skipComma, h]

theorem mem_skipComma {x : Char} {l : List Char} (hx : x ∈ skipComma l) : x ∈ l := by
  cases l with
  | nil => simp [skipComma] at hx
  | cons c cs =>
    by_cases h : c == ','
    · simp only [skipComma, h, if_pos] at hx
      exact List.mem_cons_of_mem c hx
    · simpa [skipComma, h] using hx

theorem foreign_mem_skipComma {x : Char} {l : List Char}
    (hx : x ∈ l) (hv : validChar x = false) : x ∈ skipComma l := by
  cases l with
  | nil => simp [skipComma] at hx
  | cons c cs =>
    by_cases h : c == ','
    · have hcx : x ≠ c := by
        intro heq
        subst heq
        have : x = ',' := by simpa using h
        simp [validChar, this] at hv
      simp only [skipComma, h, if_pos]
      rcases List.mem_cons.mp hx with rfl | hx
      · exact absurd rfl hcx
      · exact hx
    · simpa [skipComma, h] using hx

theorem afterDash_eq_some {l r2 : List Char} (h : afterDash l = some r2) :
    l = '-' :: r2 := by
  cases l with
  | nil => simp [afterDash] at h
  | cons c cs =>
    by_cases hc : c == '-'
    · have hc' : c = '-' := by simpa using hc
      simp only [afterDash, hc, if_pos, Option.some.injEq] at h
      rw [hc', h]
    · simp [afterDash, hc] at h

theorem digitsAcc_cons_digit {c : Char} (cs : List Char) (a : Nat)
    (h : c.isDigit = true) :
    digitsAcc (c :: cs) a = digitsAcc cs (a * 10 + (c.toNat - 48)) := by
  simp [digitsAcc, h]

theorem digitsAcc_cons_nondigit {c : Char} (cs : List Char) (a : Nat)
    (h : c.isDigit = false) : digitsAcc (c :: cs) a = (a, c :: cs) := by
  simp [digitsAcc, h]

/-- On an input that contains any character outside {digit, `-`, `,`}, the
scanning loop never terminates: no branch consumes such a character, the
list can never become empty, so every fuel bound is exhausted.  This is
the Lean rendering of the C++ `while` loop spinning forever. -/
theorem parseLoop_none :
    ∀ (fuel : Nat) (l : List Char) (acc : List Nat),
      (∃ x ∈ l, validChar x = false) → parseLoop fuel l acc = none := by
  intro fuel
  induction fuel with
  | zero =>
    intro l acc h
    obtain ⟨x, hxl, hxv⟩ := h
    cases l with
    | nil => simp at hxl
    | cons c cs => rfl
  | succ fuel ih =>
    intro l acc h
    obtain ⟨x, hxl, hxv⟩ := h
    cases l with
    | nil => simp at hxl
    | cons c cs =>
      by_cases hc : c == ','
      · have hxcs : x ∈ cs := by
          rcases List.mem_cons.mp hxl with rfl | hm
          · exfalso
            have hx' : x = ',' := by simpa using hc
            simp [validChar, hx'] at hxv
          · exact hm
        simp only [parseLoop, hc, if_pos]
        exact ih cs acc ⟨x, hxcs, hxv⟩
      · have hxr : x ∈ (digitsAcc (c :: cs) 0).2 :=
          foreign_mem_digitsAcc_snd hxl hxv
        rcases hda : afterDash (digitsAcc (c :: cs) 0).2 with _ | r2
        · simp only [parseLoop, hc, hda]
          exact ih _ _ ⟨x, foreign_mem_skipComma hxr hxv, hxv⟩
        · have hr : (digitsAcc (c :: cs) 0).2 = '-' :: r2 := afterDash_eq_some hda
          have hxr2 : x ∈ r2 := by
            rw [hr] at hxr
            rcases List.mem_cons.mp hxr with rfl | hm
            · simp [validChar] at hxv
            · exact hm
          have hxr3 : x ∈ (digitsAcc r2 0).2 := foreign_mem_digitsAcc_snd hxr2 hxv
          simp only [parseLoop, hc, hda]
          exact ih _ _ ⟨x, foreign_mem_skipComma hxr3 hxv, hxv⟩

/-- On an input whose characters all lie in {digit, `-`, `,`}, every
iteration of the scanning loop consumes at least one character, so fuel
exceeding the length suffices and the loop returns. -/
theorem parseLoop_isSome :
    ∀ (fuel : Nat) (l : List Char) (acc : List Nat),
      (∀ c ∈ l, validChar c = true) → l.length < fuel →
      (parseLoop fuel l acc).isSome = true := by
  intro fuel
  induction fuel with
  | zero => intro l acc _ hlen; exact absurd hlen (Nat.not_lt_zero _)
  | succ fuel ih =>
    intro l acc hv hlen
    cases l with
    | nil => rfl
    | cons c cs =>
      have hlcs : cs.length < fuel := by
        simpa using Nat.lt_of_succ_lt_succ hlen
      by_cases hc : c == ','
      · simp only [parseLoop, hc, if_pos]
        exact ih cs acc (fun x hx => hv x (List.mem_cons_of_mem c hx)) hlcs
      · have hcv := hv c (List.mem_cons_self c cs)
        have hcv' : c.isDigit = true ∨ c = '-' ∨ c = ',' := by
          simpa [validChar, Bool.or_eq_true, or_assoc] using hcv
        rcases hda : afterDash (digitsAcc (c :: cs) 0).2 with _ | r2
        · -- no dash after the digits: the head must be a digit
          have hcd : c.isDigit = true := by
            rcases hcv' with h | h | h
            · exact h
            · exfalso
              rw [digitsAcc_cons_nondigit cs 0 (by simp [h])] at hda
              simp [afterDash, h] at hda
            · exact absurd (by simp [h]) hc
          have hsub : (digitsAcc (c :: cs) 0).2.length ≤ cs.length := by
            rw [digitsAcc_cons_digit cs 0 hcd]
            exact digitsAcc_snd_length cs _
          have hlen2 : (skipComma (digitsAcc (c :: cs) 0).2).length < fuel :=
            lt_of_le_of_lt (le_trans (skipComma_length _) hsub) hlcs
          simp only [parseLoop, hc, hda]
          exact ih _ _
            (fun x hx => hv x (mem_digitsAcc_snd (mem_skipComma hx))) hlen2
        · have hr : (digitsAcc (c :: cs) 0).2 = '-' :: r2 := afterDash_eq_some hda
          have hlenr2 : r2.length ≤ cs.length := by
            have h1 : (digitsAcc (c :: cs) 0).2.length ≤ cs.length + 1 := by
              simpa using digitsAcc_snd_length (c :: cs) 0
            rw [hr] at h1
            simpa using h1
          have hlen2 : (skipComma (digitsAcc r2 0).2).length < fuel :=
            lt_of_le_of_lt
              (le_trans (skipComma_length _)
                (le_trans (digitsAcc_snd_length r2 0) hlenr2)) hlcs
          simp only [parseLoop, hc, hda]
          refine ih _ _ (fun x hx => hv x ?_) hlen2
          have hx2 : x ∈ r2 := mem_digitsAcc_snd (mem_skipComma hx)
          have hx3 : x ∈ (digitsAcc (c :: cs) 0).2 := by
            rw [hr]
            exact List.mem_cons_of_mem _ hx2
          exact mem_digitsAcc_snd hx3

theorem digitsSpan_decomp :
    ∀ l : List Char,
      l = (digitsSpan l).1 ++ (digitsSpan l).2 ∧
      ∀ c ∈ (digitsSpan l).1, c.isDigit = true := by
  intro l
  induction l with
  | nil => exact ⟨rfl, by intro c hc; simp [digitsSpan] at hc⟩
  | cons c cs ih =>
    by_cases h : c.isDigit
    · constructor
      · simp only [digitsSpan, h, if_pos, List.cons_append]
        exact congrArg (c :: ·) ih.1
      · intro x hx
        simp only [digitsSpan, h, if_pos] at hx
        rcases List.mem_cons.mp hx with rfl | hx
        · exact h
        · exact ih.2 x hx
    · simp [digitsSpan, h]

theorem validChar_of_digit {c : Char} (h : c.isDigit = true) :
    validChar c = true := by
  simp [validChar, h]

theorem wfTok_decomp {l r : List Char} (h : wfTok l = some r) :
    ∃ pre, l = pre ++ r ∧ ∀ c ∈ pre, validChar c = true := by
  unfold wfTok at h
  by_cases h1 : (digitsSpan l).1.isEmpty
  · simp [h1] at h
  · rcases hda : afterDash (digitsSpan l).2 with _ | r2
    · rw [hda] at h
      simp only [h1, if_neg, Bool.false_eq_true, not_false_iff,
        Option.some.injEq, if_false] at h
      refine ⟨(digitsSpan l).1, ?_, ?_⟩
      · rw [← h]; exact (digitsSpan_decomp l).1
      · exact fun c hc => validChar_of_digit ((digitsSpan_decomp l).2 c hc)
    · rw [hda] at h
      by_cases h2 : (digitsSpan r2).1.isEmpty
      · simp [h1, h2] at h
      · simp only [h1, h2, if_neg, Bool.false_eq_true, not_false_iff,
          Option.some.injEq, if_false] at h
        have hsnd : (digitsSpan l).2 = '-' :: r2 := afterDash_eq_some hda
        refine ⟨(digitsSpan l).1 ++ '-' :: (digitsSpan r2).1, ?_, ?_⟩
        · calc l = (digitsSpan l).1 ++ (digitsSpan l).2 := (digitsSpan_decomp l).1
            _ = (digitsSpan l).1 ++ '-' :: r2 := by rw [hsnd]
            _ = (digitsSpan l).1 ++ '-' :: ((digitsSpan r2).1 ++ (digitsSpan r2).2) := by
                rw [← (digitsSpan_decomp r2).1]
            _ = ((digitsSpan l).1 ++ '-' :: (digitsSpan r2).1) ++ r := by
                rw [h]; simp
        · intro x hx
          rcases List.mem_append.mp hx with hx | hx
          · exact validChar_of_digit ((digitsSpan_decomp l).2 x hx)
          · rcases List.mem_cons.mp hx with rfl | hx
            · decide
            · exact validChar_of_digit ((digitsSpan_decomp r2).2 x hx)

theorem wfDesc_valid :
    ∀ (fuel : Nat) (l : List Char), wfDesc fuel l = true →
      ∀ c ∈ l, validChar c = true := by
  intro fuel
  induction fuel with
  | zero =>
    intro l h
    cases l with
    | nil => simp [wfDesc] at h
    | cons c cs => simp [wfDesc] at h
  | succ fuel ih =>
    intro l h
    cases l with
    | nil => simp [wfDesc] at h
    | cons c cs =>
      rcases hw : wfTok (c :: cs) with _ | r
      · rw [wfDesc, hw] at h
        simp at h
      · obtain ⟨pre, hpre, hprev⟩ := wfTok_decomp hw
        cases r with
        | nil =>
          intro x hx
          rw [hpre] at hx
          simp only [List.append_nil] at hx
          exact hprev x hx
        | cons c2 rest =>
          rw [wfDesc, hw] at h
          simp only [Bool.and_eq_true, beq_iff_eq] at h
          obtain ⟨hc2', hrest⟩ := h
          intro x hx
          rw [hpre] at hx
          rcases List.mem_append.mp hx with hx | hx
          · exact hprev x hx
          · rcases List.mem_cons.mp hx with rfl | hx
            · simp [validChar, hc2']
            · exact ih rest hrest x hx

/-- `std::sort` followed by `std::unique` yields a strictly ascending
(hence duplicate-free) list. -/
theorem sorted_lt_sort_dedup (l : List Nat) :
    List.Sorted (· < ·) ((List.insertionSort (· ≤ ·) l).dedup) := by
  have hs : List.Sorted (· ≤ ·) (List.insertionSort (· ≤ ·) l) :=
    List.sorted_insertionSort (· ≤ ·) l
  have hs2 : List.Sorted (· ≤ ·) ((List.insertionSort (· ≤ ·) l).dedup) :=
    List.Pairwise.sublist (List.dedup_sublist _) hs
  exact List.Sorted.lt_of_le hs2 (List.nodup_dedup _)

/-- C2: for every well-formed online-unit descriptor (comma-separated
tokens, each a single non-negative integer or a `-`-joined range, in any
order, possibly overlapping), `read_online_cpus` terminates and returns a
strictly ascending, duplicate-free sequence of unit identifiers; in
particular `"0-3,6,8-9"` yields `[0, 1, 2, 3, 6, 8, 9]`. -/
theorem c2_wellformed_sorted_dedup :
    (∀ s : List Char, wellFormed s = true →
      ∃ out, read_online_cpus s = some out ∧ List.Sorted (· < ·) out) ∧
    read_online_cpus ['0', '-', '3', ',', '6', ',', '8', '-', '9'] =
      some [0, 1, 2, 3, 6, 8, 9] := by
  constructor
  · intro s hwf
    have hv : ∀ c ∈ s, validChar c = true := wfDesc_valid _ s hwf
    have hsome : (parseLoop (s.length + 1) s []).isSome = true :=
      parseLoop_isSome _ s [] hv (Nat.lt_succ_self _)
    obtain ⟨raw, hraw⟩ := Option.isSome_iff_exists.mp hsome
    refine ⟨(List.insertionSort (· ≤ ·) raw).dedup, ?_, sorted_lt_sort_dedup raw⟩
    simp [read_online_cpus, hraw]
  · decide

/-- Witness for C2 at the concrete descriptor `"2,0"`. -/
theorem c2_wellformed_sorted_dedup_witness :
    wellFormed ['2', ',', '0'] = true ∧
    ∃ out, read_online_cpus ['2', ',', '0'] = some out ∧
      List.Sorted (· < ·) out :=
  ⟨by decide, c2_wellformed_sorted_dedup.1 ['2', ',', '0'] (by decide)⟩

/-- C3 counterexample: on the malformed input `"x"` the reader does not
terminate with an empty sequence — the scanning loop exhausts any fuel
(the C++ loop never advances past the foreign character), so the claim
"terminates and returns the empty sequence" is false. -/
theorem c3_counterexample :
    read_online_cpus ['x'] = none ∧ read_online_cpus ['x'] ≠ some [] := by
  decide

/-- C3 amended: for the empty input the reader returns the empty
sequence, but for an input containing any character other than a digit,
`-` or `,`, the scanning loop never terminates (it yields `none` for
every fuel bound, i.e. the C++ `while` loop spins forever). -/
theorem c3_amended_empty_or_divergent :
    read_online_cpus [] = some [] ∧
    ∀ (fuel : Nat) (l : List Char) (acc : List Nat),
      (∃ x ∈ l, validChar x = false) → parseLoop fuel l acc = none :=
  ⟨by decide, parseLoop_none⟩

/-- Witness for C3's amended statement at the input `"x"`, fuel 5. -/
theorem c3_amended_witness :
    (∃ x ∈ ['x'], validChar x = false) ∧ parseLoop 5 ['x'] [] = none :=
  ⟨by decide, c3_amended_empty_or_divergent.2 5 ['x'] [] (by decide)⟩

/-- C4 counterexample: on `"0-2,1,5-4"` the reader neither returns the
empty sequence nor rejects the input; it silently drops the reversed
range and returns the partial result `[0, 1, 2]`. -/
theorem c4_counterexample :
    read_online_cpus ['0', '-', '2', ',', '1', ',', '5', '-', '4'] =
      some [0, 1, 2] ∧
    ¬(read_online_cpus ['0', '-', '2', ',', '1', ',', '5', '-', '4'] = none ∨
      read_online_cpus ['0', '-', '2', ',', '1', ',', '5', '-', '4'] =
        some []) := by
  decide

/-- C4 amended: a reversed range (`b < a`) contributes no identifiers
(`add_range(a, b)` is an empty loop) and the rest of the descriptor is
still parsed, so `"0-2,1,5-4"` yields `[0, 1, 2]` rather than an empty or
rejected result. -/
theorem c4_amended_reversed_range_empty :
    (∀ a b : Nat, b < a → range_ab a b = []) ∧
    read_online_cpus ['0', '-', '2', ',', '1', ',', '5', '-', '4'] =
      some [0, 1, 2] := by
  constructor
  · intro a b hba
    have h0 : b + 1 - a = 0 := by omega
    simp [range_ab, h0]
  · decide

/-- Witness for C4's amended statement at the reversed range `5-4`. -/
theorem c4_amended_witness : range_ab 5 4 = [] :=
  c4_amended_reversed_range_empty.1 5 4 (by decide)
/-- C5 counterexample: with pinning disabled (`--nopin`), a 2-unit list
and a request of 5 workers, the source still clamps to 2 while the claim
says the clamp happens exactly when pinning is enabled (so it predicts
5). -/
theorem c5_counterexample :
    resolve_threads [0, 1] 4 5 = 2 ∧
    resolve_threads_claim false [0, 1] 4 5 = 5 ∧
    resolve_threads [0, 1] 4 5 ≠ resolve_threads_claim false [0, 1] 4 5 := by
  decide

/-- C5 amended: a requested count ≤ 0 resolves to the online-unit count
(hardware-thread estimate, forced to at least 1, when the topology list
is empty), and a requested count greater than the number of units is
clamped down whenever a non-empty unit list exists — regardless of
whether pinning is enabled. -/
theorem c5_amended_clamp_ignores_pin :
    ∀ (cpus : List Nat) (hw : Nat) (req : Int),
      (req ≤ 0 → resolve_threads cpus hw req = resolve_online cpus hw) ∧
      (cpus ≠ [] → (cpus.length : Int) < req →
        resolve_threads cpus hw req = (cpus.length : Int)) := by
  intro cpus hw req
  constructor
  · intro hreq
    by_cases he : cpus.isEmpty
    · simp [resolve_threads, hreq, he]
    · have hlen : 1 ≤ cpus.length := by
        cases cpus with
        | nil => simp at he
        | cons a l => simp
      have honline : resolve_online cpus hw = (cpus.length : Int) := by
        have h1 : ¬((cpus.length : Int) ≤ 0) := by omega
        simp [resolve_online, he, h1]
      simp only [resolve_threads, hreq, if_pos, honline]
      have hnc : ¬(cpus.isEmpty = false ∧
          (cpus.length : Int) < (cpus.length : Int)) := by
        rintro ⟨-, hlt⟩
        exact lt_irrefl _ hlt
      rw [if_neg hnc]
  · intro hne hgt
    have he : cpus.isEmpty = false := by
      simpa [List.isEmpty_iff] using hne
    have hreq : ¬(req ≤ 0) := by
      have h0 : (0 : Int) ≤ (cpus.length : Int) := by positivity
      omega
    simp only [resolve_threads, hreq, if_neg, if_false]
    rw [if_pos ⟨he, hgt⟩]

/-- Witness for C5's amended statement: 7 requested workers on a 2-unit
list clamp to 2. -/
theorem c5_amended_witness : resolve_threads [0, 1] 4 7 = 2 := by
  exact (c5_amended_clamp_ignores_pin [0, 1] 4 7).2 (by decide) (by decide)
theorem flagStep_stop_mono {s t : Flags} (h : FlagStep s t)
    (hs : stopRequested s = true) : stopRequested t = true := by
  cases h <;> simp_all [stopRequested, on_sigint]

/-- C6: the stop flag is monotone — along any sequence of flag writes by
any components, once `stopRequested` is true it stays true (no step
resets `g_stop` or `stop`), and requesting stop twice has the same effect
as requesting it once (`on_sigint` is idempotent). -/
theorem c6_stop_monotone_idempotent :
    (∀ s t : Flags, Relation.ReflTransGen FlagStep s t →
      stopRequested s = true → stopRequested t = true) ∧
    (∀ s : Flags, on_sigint (on_sigint s) = on_sigint s) := by
  constructor
  · intro s t h hs
    induction h with
    | refl => exact hs
    | tail _ hstep ih => exact flagStep_stop_mono hstep ih
  · intro s
    rfl

/-- Witness for C6 at a concrete state and a concrete step (the phase
controller clearing `g_work` cannot clear an already-raised stop). -/
theorem c6_stop_monotone_witness :
    stopRequested ⟨true, false, false, false⟩ = true :=
  c6_stop_monotone_idempotent.1 ⟨true, true, false, false⟩ _
    (Relation.ReflTransGen.single (FlagStep.phaseWorkOff _)) (by decide)
theorem phase_run_exited (warm pulse : Int) :
    ∀ (fuel : Nat) (obs : Nat → Bool),
      phase_run warm pulse fuel PhasePC.exited obs = [] := by
  intro fuel
  induction fuel with
  | zero => intro obs; rfl
  | succ fuel ih => intro obs; exact ih _

/-- C7 counterexample: warm-up 2s, pulse 1s, and stop observed true from
the second read on (i.e. already true when the active phase's loop
condition is next checked).  The claim says the loop exits without the
Active→Idle transition, i.e. the store trace would be `[true]`; the code
still executes the unconditional `g_work.store(false)` and the trace is
`[true, false]`. -/
theorem c7_counterexample :
    phase_run 2 1 10 PhasePC.whileCheck (fun n => decide (1 ≤ n)) =
      [true, false] ∧
    phase_run 2 1 10 PhasePC.whileCheck (fun n => decide (1 ≤ n)) ≠
      [true] := by
  constructor
  · rfl
  · decide

/-- C7 amended: the controller starts in the Active state — any nonempty
store trace from the top of the loop begins with `workEnabled := true`,
and if stop is already true at the `while` check it exits with no store
at all; but once the Active phase has begun, the Active→Idle store
(`g_work.store(false)`) is unconditional: it is performed even when
stop is already true when the Active phase ends, before the loop exits. -/
theorem c7_amended_active_first_unconditional_idle_store :
    (∀ (warm pulse : Int) (fuel : Nat) (obs : Nat → Bool),
      phase_run warm pulse fuel PhasePC.whileCheck obs = [] ∨
      (phase_run warm pulse fuel PhasePC.whileCheck obs).head? = some true) ∧
    (∀ (warm pulse : Int) (b : Bool),
      phase_step warm pulse PhasePC.pulseStore b = (PhasePC.pulseLoop 0, some false)) := by
  constructor
  · intro warm pulse fuel obs
    cases fuel with
    | zero => exact Or.inl rfl
    | succ fuel =>
      by_cases h : obs 0 = true
      · left
        simp only [phase_run, phase_step, h, if_pos]
        exact phase_run_exited warm pulse fuel _
      · right
        have h' : obs 0 = false := by simpa using h
        simp [phase_run, phase_step, h']
  · intro warm pulse b
    rfl
theorem teardownTrace_get_worker (n i : Nat) (h : i < n) :
    (teardownTrace n)[i + 1]? = some (MainEvent.workerJoined i) := by
  simp only [teardownTrace, List.getElem?_cons_succ]
  rw [List.getElem?_append, if_pos (by simpa using h)]
  simp [List.getElem?_range, h]

theorem teardownTrace_get_tail (n k : Nat) (_hk : k < teardownTail.length) :
    (teardownTrace n)[n + 1 + k]? = teardownTail[k]? := by
  simp only [teardownTrace]
  rw [show n + 1 + k = (n + k) + 1 by omega, List.getElem?_cons_succ]
  rw [List.getElem?_append_right (by simp)]
  congr 1
  simp

/-- C1: in every run that reaches shutdown, the clock-revert operations
`unset_cpu_freq` and `unset_ram_freq` each occur exactly once, strictly
after every worker thread has been joined, and the teardown events are
ordered: stop flag set, then sigterm set, then the clock reverted (cpu
then ram), then the phase-controller thread joined, then the recorder
thread joined. -/
theorem c1_teardown_order : ∀ n : Nat,
    ((teardownTrace n).count MainEvent.unsetCpuFreq = 1 ∧
     (teardownTrace n).count MainEvent.unsetRamFreq = 1) ∧
    (∀ i, i < n →
      eventBefore (teardownTrace n) (MainEvent.workerJoined i)
        MainEvent.unsetCpuFreq ∧
      eventBefore (teardownTrace n) (MainEvent.workerJoined i)
        MainEvent.unsetRamFreq) ∧
    eventBefore (teardownTrace n) MainEvent.stopSet MainEvent.sigtermSet ∧
    eventBefore (teardownTrace n) MainEvent.sigtermSet MainEvent.unsetCpuFreq ∧
    eventBefore (teardownTrace n) MainEvent.unsetCpuFreq MainEvent.unsetRamFreq ∧
    eventBefore (teardownTrace n) MainEvent.unsetRamFreq MainEvent.phaseJoined ∧
    eventBefore (teardownTrace n) MainEvent.phaseJoined
      MainEvent.recorderJoined := by
  intro n
  have hcpu : (teardownTrace n)[n + 1 + 1]? = some MainEvent.unsetCpuFreq :=
    teardownTrace_get_tail n 1 (by decide)
  have hram : (teardownTrace n)[n + 1 + 2]? = some MainEvent.unsetRamFreq :=
    teardownTrace_get_tail n 2 (by decide)
  have hsig : (teardownTrace n)[n + 1 + 0]? = some MainEvent.sigtermSet :=
    teardownTrace_get_tail n 0 (by decide)
  have hpha : (teardownTrace n)[n + 1 + 3]? = some MainEvent.phaseJoined :=
    teardownTrace_get_tail n 3 (by decide)
  have hrec : (teardownTrace n)[n + 1 + 4]? = some MainEvent.recorderJoined :=
    teardownTrace_get_tail n 4 (by decide)
  have hzero : (teardownTrace n)[0]? = some MainEvent.stopSet := by
    simp [teardownTrace]
  refine ⟨⟨?_, ?_⟩, ?_, ?_, ?_, ?_, ?_, ?_⟩
  · have hws : ((List.range n).map MainEvent.workerJoined).count
        MainEvent.unsetCpuFreq = 0 := by
      rw [List.count_eq_zero]
      simp
    simp [teardownTrace, teardownTail, List.count_cons, List.count_append, hws]
  · have hws : ((List.range n).map MainEvent.workerJoined).count
        MainEvent.unsetRamFreq = 0 := by
      rw [List.count_eq_zero]
      simp
    simp [teardownTrace, teardownTail, List.count_cons, List.count_append, hws]
  · intro i hi
    exact ⟨⟨i + 1, n + 1 + 1, by omega, teardownTrace_get_worker n i hi, hcpu⟩,
           ⟨i + 1, n + 1 + 2, by omega, teardownTrace_get_worker n i hi, hram⟩⟩
  · exact ⟨0, n + 1 + 0, by omega, hzero, hsig⟩
  · exact ⟨n + 1 + 0, n + 1 + 1, by omega, hsig, hcpu⟩
  · exact ⟨n + 1 + 1, n + 1 + 2, by omega, hcpu, hram⟩
  · exact ⟨n + 1 + 2, n + 1 + 3, by omega, hram, hpha⟩
  · exact ⟨n + 1 + 3, n + 1 + 4, by omega, hpha, hrec⟩

/-- Witness for C1 at a run with 2 workers: worker 1 is joined before the
cpu-clock revert. -/
theorem c1_teardown_order_witness :
    eventBefore (teardownTrace 2) (MainEvent.workerJoined 1)
      MainEvent.unsetCpuFreq :=
  ((c1_teardown_order 2).2.1 1 (by decide)).1
/-- C8: the pulse-phase clock indices `--pulse-cpu-clock` and
`--pulse-ram-clock` are parsed but never used: for any two settings of
the pulse indices, `main`'s observable behavior (DVFS calls and
arguments, output path, worker count, phase durations, teardown, exit
status) is identical. -/
theorem c8_pulse_clock_indices_unused :
    ∀ (cfg : JoltConfig) (cpus : List Nat) (hw : Nat) (p₁ r₁ p₂ r₂ : Int),
      main_summary { cfg with pulse_cpu_clk := p₁, pulse_ram_clk := r₁ } cpus hw =
      main_summary { cfg with pulse_cpu_clk := p₂, pulse_ram_clk := r₂ } cpus hw := by
  intro cfg cpus hw p₁ r₁ p₂ r₂
  rfl

theorem one_le_resolve_online (cpus : List Nat) (hw : Nat) :
    1 ≤ resolve_online cpus hw := by
  simp only [resolve_online]
  split_ifs <;> omega

theorem one_le_resolve_threads (cpus : List Nat) (hw : Nat) (req : Int) :
    1 ≤ resolve_threads cpus hw req := by
  have hon : 1 ≤ resolve_online cpus hw := one_le_resolve_online cpus hw
  have hlen : cpus.isEmpty = false → 1 ≤ (cpus.length : Int) := by
    intro he
    have : cpus ≠ [] := by simpa [List.isEmpty_iff] using he
    have := List.length_pos.mpr this
    omega
  by_cases hreq : req ≤ 0
  · simp only [resolve_threads, hreq, if_pos]
    by_cases hc : cpus.isEmpty = false ∧
        (cpus.length : Int) < resolve_online cpus hw
    · rw [if_pos hc]
      exact hlen hc.1
    · rw [if_neg hc]
      exact hon
  · simp only [resolve_threads, hreq, if_neg, if_false]
    by_cases hc : cpus.isEmpty = false ∧ (cpus.length : Int) < req
    · rw [if_pos hc]
      exact hlen hc.1
    · rw [if_neg hc]
      omega

/-- C10: for every configuration the resolved worker count is at least 1
(the online estimate is forced to a minimum of 1 and a non-positive
request falls back to it), so the "zero resolvable workers" failure
cannot occur, and `main` returns exit status 0 on every path that
reaches the end of the run. -/
theorem c10_workers_positive_exit_zero :
    ∀ (cfg : JoltConfig) (cpus : List Nat) (hw : Nat),
      1 ≤ (main_summary cfg cpus hw).resolved_threads ∧
      (main_summary cfg cpus hw).exit_code = 0 :=
  fun cfg cpus hw => ⟨one_le_resolve_threads cpus hw cfg.threads, rfl⟩
/-- `v2`'s recurrence gains at least 1 per iteration: its multiplier
exceeds 1, its addend is `0.9999998`, and `(1.0000002 - 1) + 0.9999998 = 1`
exactly. -/
theorem hot_iter_v2_growth : ∀ n : Nat, 1 + (n : ℚ) ≤ (hot_iter n).v2 := by
  intro n
  induction n with
  | zero =>
    show (1 : ℚ) + 0 ≤ 1000003 / 1000000
    norm_num
  | succ n ih =>
    have h2 : (hot_iter (n + 1)).v2 =
        (hot_iter n).v2 * (10000002 / 10000000) + 9999998 / 10000000 := rfl
    rw [h2]
    push_cast
    nlinarith [ih]

/-- C9 counterexample: after `2 * 10^30` iterations the accumulator `v2`
has crossed `1e30` (the drift bound the code uses for `v0`) and it is
still beyond it one iteration later — it is never re-seeded, so an
accumulator does remain in an overflow-range state, contradicting the
claim that every accumulator is re-seeded at its drift bound. -/
theorem c9_counterexample :
    (10 : ℚ) ^ 30 < (hot_iter (2 * 10 ^ 30)).v2 ∧
    (10 : ℚ) ^ 30 < (hot_iter (2 * 10 ^ 30 + 1)).v2 := by
  constructor
  · have h := hot_iter_v2_growth (2 * 10 ^ 30)
    calc (10 : ℚ) ^ 30 < 1 + ((2 * 10 ^ 30 : Nat) : ℚ) := by push_cast; norm_num
      _ ≤ _ := h
  · have h := hot_iter_v2_growth (2 * 10 ^ 30 + 1)
    calc (10 : ℚ) ^ 30 < 1 + ((2 * 10 ^ 30 + 1 : Nat) : ℚ) := by push_cast; norm_num
      _ ≤ _ := h

/-- C9 amended: only `v0` and `v1` carry re-seed branches (`v0` is reset
to 1 once it exceeds `1e30`; `v1` once it falls below `1e-30`); `v2` is
updated with no re-seed branch at all and, in exact arithmetic, grows
beyond every bound — so not every accumulator is protected against the
overflow range. -/
theorem c9_amended_only_v0_v1_reseeded :
    (∀ s : HotState,
      (10 : ℚ) ^ 30 < s.v0 * (10000001 / 10000000) + 9999999 / 10000000 →
      (hot_step s).v0 = 1) ∧
    (∀ s : HotState,
      (hot_step s).v2 = s.v2 * (10000002 / 10000000) + 9999998 / 10000000) ∧
    (∀ n : Nat, 1 + (n : ℚ) ≤ (hot_iter n).v2) := by
  refine ⟨?_, fun s => rfl, hot_iter_v2_growth⟩
  intro s h
  simp only [hot_step]
  rw [if_pos h]

/-- Witness for C9's amended statement: a `v0` beyond the drift bound is
re-seeded to 1 by one step. -/
theorem c9_amended_witness :
    (hot_step { v0 := 10 ^ 31, v1 := 1, v2 := 1, v3 := 1, rng := 0 }).v0 = 1 :=
  c9_amended_only_v0_v1_reseeded.1
    { v0 := 10 ^ 31, v1 := 1, v2 := 1, v3 := 1, rng := 0 } (by norm_num)

end DDS
